import Mathlib

/-!
Verification development for the CPM (Critical Path Method) scheduler in
`src/main.py`.

Modelling conventions (shallow embedding):
* Python numbers are modelled by `ℚ`; the initial value `float('inf')` of the
  fields `LS`/`LF` forces an extended type `EFloat` (`ℚ` plus positive
  infinity) for those fields and for the backward-pass minimum.
* The Python dict `Network.activities` (insertion ordered, unique keys) is
  modelled as a `List Activity` in insertion order; the id of an entry is
  stored in the entry itself.  Key lookup is `List.find?` over the list.
* Raised exceptions (`ValueError` in `calculate_early`, the `ValueError`
  raised by `max()` on an empty sequence in `calculate_cpm`) are modelled by
  `Except CpmError`.
* `print` calls (the negative-`LS` warning, and console output) have no
  effect on the data and are not modelled, except that the builder is paired
  with an explicit warning log in order to settle the claim that malformed
  records are "dropped with a warning".
-/

/-- A Python float as used by this program: either a rational value or
`float('inf')` (the initial value of `LS`/`LF` and the neutral element of the
backward-pass minimum).  No other non-finite value can arise in the code. -/
inductive EFloat where
  | inf : EFloat
  | fin : ℚ → EFloat
deriving DecidableEq, Repr

/-- Subtraction of a finite number from an `EFloat`, as in `self.LF - self.duration`
(Python: `inf - d == inf`). -/
def EFloat.sub : EFloat → ℚ → EFloat
  | .inf, _ => .inf
  | .fin x, d => .fin (x - d)

/-- Binary minimum on `EFloat`, as computed by Python's `min` on floats. -/
def EFloat.emin : EFloat → EFloat → EFloat
  | .inf, y => y
  | .fin x, .inf => .fin x
  | .fin x, .fin y => .fin (min x y)

/-- The order `x <= y` on `EFloat`, as compared by Python on floats. -/
def EFloat.le : EFloat → EFloat → Prop
  | _, .inf => True
  | .inf, .fin _ => False
  | .fin x, .fin y => x ≤ y

instance (x y : EFloat) : Decidable (EFloat.le x y) := by
  cases x <;> cases y <;> simp only [EFloat.le] <;> infer_instance

/-- Floor of a rational number (computable; `Int.fdiv` rounds toward `-∞`). -/
def ratFloor (q : ℚ) : ℤ := q.num.fdiv (q.den : ℤ)

/-- Python's `round` to an integer: round half to even (banker's rounding). -/
def roundHalfEven (q : ℚ) : ℤ :=
  let f := ratFloor q
  let r := q - (f : ℚ)
  if r < 1/2 then f
  else if 1/2 < r then f + 1
  else if f % 2 = 0 then f else f + 1

/-- Whether Python's `round(q, 2) == 0`: rounding `q` at 2-decimal precision
gives zero exactly when `round(q * 100)` is the integer `0`. -/
def pyRound2IsZero (q : ℚ) : Bool := roundHalfEven (q * 100) == 0

/-- The test `round(total_float, 2) == 0` of `calculate_float`, lifted to
`EFloat` (an infinite slack never compares equal to `0`). -/
def EFloat.slackRoundZero : EFloat → Bool
  | .inf => false
  | .fin q => pyRound2IsZero q

/-- The errors the engine can raise (`src/main.py`):
* `invariantViolation id`: the `ValueError` raised by `Activity.calculate_early`
  (line 32) when `EF < ES`, i.e. when the duration is negative;
* `emptyNetwork`: the `ValueError` raised by `max()` on an empty sequence at
  line 93 of `Network.calculate_cpm` when the network has no activities
  (the spec's `EmptyNetworkError`). -/
inductive CpmError where
  | invariantViolation : String → CpmError
  | emptyNetwork : CpmError
deriving DecidableEq, Repr

/-- `class Activity` (`src/main.py` lines 5-18): identity, duration, links and
the computed CPM fields. -/
structure Activity where
  id : String
  name : String
  duration : ℚ
  predecessors : List String
  successors : List String
  ES : ℚ
  EF : ℚ
  LS : EFloat
  LF : EFloat
  is_critical : Bool
deriving DecidableEq, Repr

/-- `Activity.__init__` (lines 6-18): fresh activity with empty successors,
`ES = EF = 0`, `LS = LF = float('inf')`, not critical. -/
def Activity.init (id name : String) (duration : ℚ) (predecessors : List String) : Activity :=
  { id := id, name := name, duration := duration, predecessors := predecessors,
    successors := [], ES := 0, EF := 0, LS := .inf, LF := .inf, is_critical := false }

/-- `Activity.calculate_early` (lines 25-32): set `ES` to the given maximal
predecessor `EF`, set `EF = ES + duration`, and raise when `EF < ES`. -/
def Activity.calculate_early (a : Activity) (max_predecessor_ef : ℚ) : Except CpmError Activity :=
  let a' := { a with ES := max_predecessor_ef, EF := max_predecessor_ef + a.duration }
  if a'.EF < a'.ES then .error (.invariantViolation a.id) else .ok a'

/-- `Activity.calculate_late` (lines 34-45): when the activity has no
successors and a deadline is supplied, `LF` is the project deadline, otherwise
the given minimal successor `LS`; then `LS = LF - duration`.  (The negative-`LS`
warning at line 45 is a `print` with no effect on the data.) -/
def Activity.calculate_late (a : Activity) (min_successor_ls : EFloat)
    (project_deadline : Option ℚ) : Activity :=
  let LF : EFloat :=
    match a.successors, project_deadline with
    | [], some d => .fin d
    | _, _ => min_successor_ls
  { a with LF := LF, LS := LF.sub a.duration }

/-- `Activity.calculate_float` (lines 47-55): the total float `LS - ES` is
returned, and `is_critical` is set to whether it rounds to `0` at 2-decimal
precision. -/
def Activity.calculate_float (a : Activity) : EFloat × Activity :=
  let total_float := a.LS.sub a.ES
  (total_float, { a with is_critical := total_float.slackRoundZero })

/-- Key lookup in the insertion-ordered activity dict (`self.activities[i]`):
the first entry with the given id. -/
def lookup : List Activity → String → Option Activity
  | [], _ => none
  | b :: bs, i => if b.id = i then some b else lookup bs i

/-- Key membership in the dict (`i in self.activities`). -/
def hasId (acts : List Activity) (i : String) : Bool :=
  (lookup acts i).isSome

/-- In-place update of the entry with key `i` of the dict. -/
def updateActs (acts : List Activity) (i : String) (f : Activity → Activity) : List Activity :=
  acts.map (fun b => if b.id = i then f b else b)

/-- The `EF` values of the predecessors of `a` that exist in the current dict
state `st` (lines 81-85: ids not present are skipped). -/
def predEFs (st : List Activity) (a : Activity) : List ℚ :=
  a.predecessors.filterMap (fun p => (lookup st p).map Activity.EF)

/-- Lines 78-87: `max_prev_ef` is `0`, replaced by `max(predecessor_efs)` when
that list is non-empty (Python's `max` on a non-empty list is a left fold). -/
def maxPrevEF (st : List Activity) (a : Activity) : ℚ :=
  match predEFs st a with
  | [] => 0
  | e :: es => es.foldl max e

/-- The `LS` values of the successors of `a` that exist in the current dict
state `st` (lines 103-107). -/
def succLSs (st : List Activity) (a : Activity) : List EFloat :=
  a.successors.filterMap (fun s => (lookup st s).map Activity.LS)

/-- Lines 99-109: `min_next_ls` is `float('inf')`, replaced by
`min(successor_ls_values)` when that list is non-empty. -/
def minSuccLS (st : List Activity) (a : Activity) : EFloat :=
  match succLSs st a with
  | [] => .inf
  | l :: ls => ls.foldl EFloat.emin l

/-- One iteration of the backward pass (lines 96-115) on activity `a` with the
dict in state `st`: `calculate_late` with the minimal successor `LS` and the
project duration as deadline, then `calculate_float`. -/
def backStep (st : List Activity) (project_duration : ℚ) (a : Activity) : Activity :=
  ((a.calculate_late (minSuccLS st a) (some project_duration)).calculate_float).2

/-- The forward pass (lines 74-90).  `done` holds the already-processed
activities (mutated in place), `pending` the rest; the dict state seen by each
iteration is `done ++ pending`, exactly as the Python loop sees already-updated
values for earlier keys and stale values for later ones. -/
def fwdAux : List Activity → List Activity → Except CpmError (List Activity)
  | done, [] => .ok done
  | done, a :: rest =>
    match a.calculate_early (maxPrevEF (done ++ a :: rest) a) with
    | .error e => .error e
    | .ok a' => fwdAux (done ++ [a']) rest

/-- The backward pass (lines 95-115), iterating over `reversed(ids)`.
`revPending` holds the not-yet-processed activities in reverse insertion
order, `done` the already-processed tail in insertion order; the dict state is
`revPending.reverse ++ done`. -/
def bwdAuxR (project_duration : ℚ) : List Activity → List Activity → List Activity
  | [], done => done
  | a :: revRest, done =>
    bwdAuxR project_duration revRest
      (backStep (revRest.reverse ++ a :: done) project_duration a :: done)

/-- Python's `max` over a list of numbers: `ValueError` on the empty list
(line 93, taken over all `EF` values; the spec's `EmptyNetworkError`). -/
def listMax : List ℚ → Except CpmError ℚ
  | [] => .error .emptyNetwork
  | e :: es => .ok (es.foldl max e)

/-- `class Network` (lines 59-67): the insertion-ordered id-keyed dict of
activities. -/
structure Network where
  activities : List Activity
deriving DecidableEq, Repr

/-- `Network.add_activity_object` (lines 63-64): dict assignment — overwrite
in place when the id is already a key, append otherwise. -/
def Network.add_activity_object (n : Network) (a : Activity) : Network :=
  if hasId n.activities a.id
  then ⟨updateActs n.activities a.id (fun _ => a)⟩
  else ⟨n.activities ++ [a]⟩

/-- `Network.calculate_cpm` (lines 69-115): forward pass over the ids in
insertion order, then `project_duration = max(EF)` (raising on an empty
network), then backward pass in reverse insertion order. -/
def Network.calculate_cpm (n : Network) : Except CpmError Network := do
  let acts ← fwdAux [] n.activities
  let pd ← listMax (acts.map Activity.EF)
  pure ⟨bwdAuxR pd acts.reverse []⟩

/-- The `project_duration` value computed at line 93 (exposed for the
statements about the project duration; `calculate_cpm` keeps it local). -/
def cpmProjectDuration (n : Network) : Except CpmError ℚ := do
  let acts ← fwdAux [] n.activities
  listMax (acts.map Activity.EF)

/-- One inner iteration of `_link_successors` (lines 158-160): if predecessor
id `pid` is a key of the dict, append `cid` to its successor list. -/
def linkPredStep (cur : List Activity) (cid pid : String) : List Activity :=
  if hasId cur pid
  then updateActs cur pid (fun p => { p with successors := p.successors ++ [cid] })
  else cur

/-- The inner loop of `_link_successors` over the predecessor ids of one
activity `a` (`a.predecessors` and `a.id` are read from the iteration value,
which linking never mutates). -/
def linkFromActivity (cur : List Activity) (a : Activity) : List Activity :=
  a.predecessors.foldl (fun c pid => linkPredStep c a.id pid) cur

/-- `NetworkBuilder._link_successors` (lines 155-160): iterate over the
activities in insertion order, threading the successor updates. -/
def linkActs (acts : List Activity) : List Activity :=
  acts.foldl linkFromActivity acts

/-- `_link_successors` as an operation on the network. -/
def Network.link_successors (n : Network) : Network :=
  ⟨linkActs n.activities⟩

/-- The successor entries that `_link_successors` appends to the entry with id
`x` while processing the activities `cs` in order, when the network's key set
is `ids`: one copy of `c.id` for every occurrence of `x` in `c.predecessors`
(the occurrence passes the `pred_id in self._network.activities` test exactly
when `x ∈ ids`).  Derived closed form of the linking fold, proved equal to it
below. -/
def linkAdds (ids : List String) : List Activity → String → List String
  | [], _ => []
  | c :: cs, x =>
    ((c.predecessors.filter (fun q => decide (q = x) && decide (q ∈ ids))).map (fun _ => c.id))
      ++ linkAdds ids cs x

/-- The per-entry effect of `_link_successors` in closed form: append to the
successor list of `a` the entries contributed by all activities `cs`. -/
def linkUpd (ids : List String) (cs : List Activity) (a : Activity) : Activity :=
  { a with successors := a.successors ++ linkAdds ids cs a.id }

/-- One JSON record of the input list, as inspected by `NetworkBuilder.build`
(lines 171-178): each field is present or absent. -/
structure RawItem where
  id : Option String
  name : Option String
  duration : Option ℚ
  predecessors : Option (List String)
deriving DecidableEq, Repr

/-- A record has both required fields (`'id' in item and 'duration' in item`). -/
def RawItem.wellFormed (it : RawItem) : Bool :=
  it.id.isSome && it.duration.isSome

/-- One iteration of the loop at lines 171-178, paired with the warning log:
a record with both `id` and `duration` becomes an activity
(`name` defaulting to `"N/A"`, `predecessors` to `[]`); any other record is
skipped.  The source has no `else` branch and no `print` here, so the skip
emits no warning and the log component never grows. -/
def buildStep : Network × List String → RawItem → Network × List String
  | (net, ws), it =>
    match it.id, it.duration with
    | some i, some d =>
      (net.add_activity_object (Activity.init i (it.name.getD "N/A") d (it.predecessors.getD [])), ws)
    | _, _ => (net, ws)

/-- The record-processing stage of `NetworkBuilder.build` (lines 171-178) on a
loaded list of records, starting from the empty network and an empty warning
log. -/
def buildPopulate (items : List RawItem) : Network × List String :=
  items.foldl buildStep (⟨[]⟩, [])

/-- `NetworkBuilder.build` (lines 162-188): process the loaded records, link
successors, and run `calculate_cpm` when the network is non-empty (an
exception from `calculate_cpm` propagates out of `build`). -/
def NetworkBuilder.build (items : List RawItem) : Except CpmError (Network × List String) :=
  let nw := buildPopulate items
  let linked := nw.1.link_successors
  if linked.activities.isEmpty then .ok (linked, nw.2)
  else (linked.calculate_cpm).map (fun n => (n, nw.2))

/-- The worked scenario of the spec: activities `A(3,[])`, `B(2,[A])`,
`C(4,[A])`, `D(1,[B,C])`, inserted in this order. -/
def demoUnlinked : Network :=
  ((((⟨[]⟩ : Network).add_activity_object (Activity.init "A" "A" 3 []))
      |>.add_activity_object (Activity.init "B" "B" 2 ["A"]))
      |>.add_activity_object (Activity.init "C" "C" 4 ["A"]))
      |>.add_activity_object (Activity.init "D" "D" 1 ["B", "C"])

/-- The demo network after `_link_successors`. -/
def demoNet : Network := demoUnlinked.link_successors

/-- The demo network after `calculate_cpm` (the error branch cannot occur). -/
def demoOk : Network :=
  match demoNet.calculate_cpm with
  | .ok n => n
  | .error _ => ⟨[]⟩

/-- An activity is a fixpoint of the forward step with the dict in state `st`:
its `ES` is already the maximal predecessor `EF` read off `st`, its `EF` is
`ES + duration`, and its duration is non-negative (so `calculate_early`
does not raise). -/
def FwdFix (st : List Activity) (a : Activity) : Prop :=
  a.ES = maxPrevEF st a ∧ a.EF = a.ES + a.duration ∧ 0 ≤ a.duration

/-- Every predecessor id of `a` is either a key of `st` or absent from the
whole id list `ids0`. -/
def PredsIn (st : List Activity) (ids0 : List String) (a : Activity) : Prop :=
  ∀ p ∈ a.predecessors, (lookup st p).isSome = true ∨ p ∉ ids0

/-- An activity is a fixpoint of the backward step with the dict in state `st`
and project duration `pd`: `LF` is already the project deadline (no
successors) or the minimal successor `LS` read off `st`, `LS` is
`LF - duration`, and `is_critical` is the rounded-slack test. -/
def BwdFix (st : List Activity) (pd : ℚ) (a : Activity) : Prop :=
  (a.successors = [] → a.LF = EFloat.fin pd)
  ∧ (a.successors ≠ [] → a.LF = minSuccLS st a)
  ∧ a.LS = a.LF.sub a.duration
  ∧ a.is_critical = (a.LS.sub a.ES).slackRoundZero

/-- Every successor id of `a` is either a key of `st` or absent from the whole
id list `ids0`. -/
def SuccsIn (st : List Activity) (ids0 : List String) (a : Activity) : Prop :=
  ∀ s ∈ a.successors, (lookup st s).isSome = true ∨ s ∉ ids0

/-- The documented topological precondition on the insertion order: every
predecessor id of the `k`-th activity either occurs among the ids of the
earlier activities or is dangling (absent from the network altogether). -/
def TopoPred (acts : List Activity) : Prop :=
  ∀ k (hk : k < acts.length), ∀ p ∈ (acts.get ⟨k, hk⟩).predecessors,
    p ∈ (acts.take k).map Activity.id ∨ p ∉ acts.map Activity.id

/-! ### Basic lemmas about dict lookup -/

theorem lookup_eq_none_iff {acts : List Activity} {p : String} :
    lookup acts p = none ↔ ∀ b ∈ acts, b.id ≠ p := by
  induction acts with
  | nil => simp [lookup]
  | cons b bs ih =>
    by_cases h : b.id = p <;> simp [lookup, h, ih]

theorem lookup_mem {acts : List Activity} {p : String} {b : Activity}
    (h : lookup acts p = some b) : b ∈ acts ∧ b.id = p := by
  induction acts with
  | nil => simp [lookup] at h
  | cons c cs ih =>
    by_cases hc : c.id = p
    · simp [lookup, hc] at h
      subst h
      exact ⟨List.mem_cons_self c cs, hc⟩
    · simp [lookup, hc] at h
      rcases ih h with ⟨h1, h2⟩
      exact ⟨List.mem_cons_of_mem c h1, h2⟩

theorem lookup_isSome_iff {acts : List Activity} {p : String} :
    (lookup acts p).isSome = true ↔ p ∈ acts.map Activity.id := by
  induction acts with
  | nil => simp [lookup]
  | cons b bs ih =>
    by_cases h : b.id = p
    · simp [lookup, h]
    · have h' : ¬ p = b.id := fun hc => h hc.symm
      simp [lookup, h, ih, h']

theorem lookup_append_of_some {acts : List Activity} {p : String} {b : Activity}
    (h : lookup acts p = some b) (bs : List Activity) :
    lookup (acts ++ bs) p = some b := by
  induction acts with
  | nil => simp [lookup] at h
  | cons c cs ih =>
    by_cases hc : c.id = p <;> simp_all [lookup, hc]

theorem lookup_append_of_none {acts : List Activity} {p : String}
    (h : lookup acts p = none) (bs : List Activity) :
    lookup (acts ++ bs) p = lookup bs p := by
  induction acts with
  | nil => simp
  | cons c cs ih =>
    by_cases hc : c.id = p <;> simp_all [lookup, hc]

theorem lookup_pair_congr {γ : Type} (f : Activity → γ) :
    ∀ {st₁ st₂ : List Activity}, st₁.map (fun x => (x.id, f x)) = st₂.map (fun x => (x.id, f x)) →
    ∀ p, (lookup st₁ p).map f = (lookup st₂ p).map f := by
  intro st₁
  induction st₁ with
  | nil =>
    intro st₂ h p
    cases st₂ with
    | nil => rfl
    | cons b bs => simp at h
  | cons a as ih =>
    intro st₂ h p
    cases st₂ with
    | nil => simp at h
    | cons b bs =>
      simp only [List.map_cons, List.cons.injEq, Prod.mk.injEq] at h
      obtain ⟨⟨hid, hf⟩, htail⟩ := h
      by_cases hp : a.id = p
      · simp [lookup, hp, hid ▸ hp, hf]
      · have hbp : ¬ b.id = p := by rw [← hid]; exact hp
        simpa [lookup, hp, hbp] using ih htail p

/-! ### Lemmas about Python's max on a non-empty list (a left fold) -/

theorem le_foldl_max (l : List ℚ) (e : ℚ) : e ≤ l.foldl max e := by
  induction l generalizing e with
  | nil => simp
  | cons x xs ih => exact le_trans (le_max_left e x) (ih (max e x))

theorem foldl_max_mem (l : List ℚ) (e : ℚ) : l.foldl max e = e ∨ l.foldl max e ∈ l := by
  induction l generalizing e with
  | nil => simp
  | cons x xs ih =>
    rcases ih (max e x) with h | h
    · rcases max_cases e x with ⟨hm, _⟩ | ⟨hm, _⟩
      · left; rw [List.foldl_cons, h, hm]
      · right; rw [List.foldl_cons, h, hm]; exact List.mem_cons_self x xs
    · right; exact List.mem_cons_of_mem x h

theorem mem_le_foldl_max {x : ℚ} {l : List ℚ} (e : ℚ) (h : x ∈ l) : x ≤ l.foldl max e := by
  induction l generalizing e with
  | nil => simp at h
  | cons y ys ih =>
    rcases List.mem_cons.mp h with rfl | h
    · exact le_trans (le_max_right e x) (le_foldl_max ys (max e x))
    · exact ih (max e y) h

theorem filterMap_erase_of_none {α β : Type} [DecidableEq α] (f : α → Option β)
    {p : α} (hp : f p = none) : ∀ l : List α, (l.erase p).filterMap f = l.filterMap f := by
  intro l
  induction l with
  | nil => rfl
  | cons x xs ih =>
    by_cases hx : x = p
    · subst hx
      simp [List.erase_cons_head, List.filterMap_cons, hp]
    · rw [List.erase_cons_tail]
      · simp only [List.filterMap_cons]
        cases f x <;> simp [ih]
      · simp [hx]

/-! ### Lemmas about the per-activity computations -/

theorem calculate_early_ok_iff {a : Activity} {m : ℚ} {a' : Activity} :
    a.calculate_early m = .ok a' ↔
      0 ≤ a.duration ∧ a' = { a with ES := m, EF := m + a.duration } := by
  unfold Activity.calculate_early
  by_cases h : m + a.duration < m
  · simp only [if_pos h]
    constructor
    · intro hc; cases hc
    · rintro ⟨hd, _⟩
      exact absurd h (not_lt.mpr (le_add_of_nonneg_right hd))
  · simp only [if_neg h]
    constructor
    · intro hc
      injection hc with hc
      exact ⟨by linarith [not_lt.mp h], hc.symm⟩
    · rintro ⟨_, rfl⟩; rfl

theorem calculate_early_error {a : Activity} {m : ℚ} (h : a.duration < 0) :
    a.calculate_early m = .error (.invariantViolation a.id) := by
  unfold Activity.calculate_early
  have hc : ({ a with ES := m, EF := m + a.duration } : Activity).EF
      < ({ a with ES := m, EF := m + a.duration } : Activity).ES := by
    show m + a.duration < m
    linarith
  rw [if_pos hc]

theorem filterMap_congr_mem {α β : Type} (f g : α → Option β) :
    ∀ l : List α, (∀ x ∈ l, f x = g x) → l.filterMap f = l.filterMap g := by
  intro l
  induction l with
  | nil => intro _; rfl
  | cons x xs ih =>
    intro h
    have hx := h x (List.mem_cons_self x xs)
    have hxs := ih (fun y hy => h y (List.mem_cons_of_mem x hy))
    simp only [List.filterMap_cons, hx, hxs]

theorem predEFs_congr {st₁ st₂ : List Activity} {a b : Activity}
    (hp : a.predecessors = b.predecessors)
    (h : ∀ p ∈ a.predecessors, (lookup st₁ p).map Activity.EF = (lookup st₂ p).map Activity.EF) :
    predEFs st₁ a = predEFs st₂ b := by
  unfold predEFs
  rw [← hp]
  exact filterMap_congr_mem _ _ _ (fun p hp' => by rw [h p hp'])

theorem maxPrevEF_congr {st₁ st₂ : List Activity} {a b : Activity}
    (hp : a.predecessors = b.predecessors)
    (h : ∀ p ∈ a.predecessors, (lookup st₁ p).map Activity.EF = (lookup st₂ p).map Activity.EF) :
    maxPrevEF st₁ a = maxPrevEF st₂ b := by
  unfold maxPrevEF
  rw [predEFs_congr hp h]

theorem succLSs_congr {st₁ st₂ : List Activity} {a b : Activity}
    (hs : a.successors = b.successors)
    (h : ∀ s ∈ a.successors, (lookup st₁ s).map Activity.LS = (lookup st₂ s).map Activity.LS) :
    succLSs st₁ a = succLSs st₂ b := by
  unfold succLSs
  rw [← hs]
  exact filterMap_congr_mem _ _ _ (fun s hs' => by rw [h s hs'])

theorem minSuccLS_congr {st₁ st₂ : List Activity} {a b : Activity}
    (hs : a.successors = b.successors)
    (h : ∀ s ∈ a.successors, (lookup st₁ s).map Activity.LS = (lookup st₂ s).map Activity.LS) :
    minSuccLS st₁ a = minSuccLS st₂ b := by
  unfold minSuccLS
  rw [succLSs_congr hs h]

/-! ### The backward step in closed form -/

theorem backStep_eq (st : List Activity) (pd : ℚ) (a : Activity) :
    backStep st pd a =
      { a with
        LF := (match a.successors with | [] => EFloat.fin pd | _ => minSuccLS st a),
        LS := (match a.successors with | [] => EFloat.fin pd | _ => minSuccLS st a).sub a.duration,
        is_critical :=
          (((match a.successors with | [] => EFloat.fin pd | _ => minSuccLS st a).sub
            a.duration).sub a.ES).slackRoundZero } := by
  cases h : a.successors <;>
    simp [backStep, Activity.calculate_late, Activity.calculate_float, h]

theorem backStep_congr {st₁ st₂ : List Activity} {pd : ℚ} {a : Activity}
    (h : ∀ s ∈ a.successors, (lookup st₁ s).map Activity.LS = (lookup st₂ s).map Activity.LS) :
    backStep st₁ pd a = backStep st₂ pd a := by
  rw [backStep_eq, backStep_eq, minSuccLS_congr rfl h]

theorem backStep_id (st : List Activity) (pd : ℚ) (a : Activity) :
    (backStep st pd a).id = a.id := by rw [backStep_eq]

theorem backStep_name (st : List Activity) (pd : ℚ) (a : Activity) :
    (backStep st pd a).name = a.name := by rw [backStep_eq]

theorem backStep_duration (st : List Activity) (pd : ℚ) (a : Activity) :
    (backStep st pd a).duration = a.duration := by rw [backStep_eq]

theorem backStep_predecessors (st : List Activity) (pd : ℚ) (a : Activity) :
    (backStep st pd a).predecessors = a.predecessors := by rw [backStep_eq]

theorem backStep_successors (st : List Activity) (pd : ℚ) (a : Activity) :
    (backStep st pd a).successors = a.successors := by rw [backStep_eq]

theorem backStep_ES (st : List Activity) (pd : ℚ) (a : Activity) :
    (backStep st pd a).ES = a.ES := by rw [backStep_eq]

theorem backStep_EF (st : List Activity) (pd : ℚ) (a : Activity) :
    (backStep st pd a).EF = a.EF := by rw [backStep_eq]

theorem backStep_LS (st : List Activity) (pd : ℚ) (a : Activity) :
    (backStep st pd a).LS = ((backStep st pd a).LF).sub a.duration := by
  rw [backStep_eq]

theorem backStep_LF_of_nil {a : Activity} (st : List Activity) (pd : ℚ)
    (h : a.successors = []) : (backStep st pd a).LF = .fin pd := by
  rw [backStep_eq]
  simp [h]

/-! ### Structural lemmas about the two passes -/

theorem fwdAux_cons_ok {done rest res : List Activity} {a : Activity} :
    fwdAux done (a :: rest) = .ok res ↔
      ∃ a', a.calculate_early (maxPrevEF (done ++ a :: rest) a) = .ok a'
        ∧ fwdAux (done ++ [a']) rest = .ok res := by
  cases h : a.calculate_early (maxPrevEF (done ++ a :: rest) a) <;> simp [fwdAux, h]

theorem fwdAux_ok_mem {pending : List Activity} :
    ∀ {done res : List Activity}, fwdAux done pending = .ok res →
    ∀ x ∈ res, x ∈ done ∨ (x.EF = x.ES + x.duration ∧ 0 ≤ x.duration) := by
  induction pending with
  | nil =>
    intro done res h x hx
    simp only [fwdAux] at h
    injection h with h
    subst h
    exact Or.inl hx
  | cons a rest ih =>
    intro done res h x hx
    rcases fwdAux_cons_ok.mp h with ⟨a', he, hrest⟩
    rcases calculate_early_ok_iff.mp he with ⟨hd, ha'⟩
    rcases ih hrest x hx with hdone | hprop
    · rcases List.mem_append.mp hdone with h1 | h1
      · exact Or.inl h1
      · right
        rcases List.mem_singleton.mp h1 with rfl
        subst ha'
        exact ⟨rfl, hd⟩
    · exact Or.inr hprop

theorem fwdAux_ok_nonneg {pending : List Activity} :
    ∀ {done res : List Activity}, fwdAux done pending = .ok res →
    ∀ a ∈ pending, 0 ≤ a.duration := by
  induction pending with
  | nil => intro _ _ _ a ha; simp at ha
  | cons b rest ih =>
    intro done res h a ha
    rcases fwdAux_cons_ok.mp h with ⟨a', he, hrest⟩
    rcases List.mem_cons.mp ha with rfl | ha
    · exact (calculate_early_ok_iff.mp he).1
    · exact ih hrest a ha

theorem fwdAux_map_skel {γ : Type} (g : Activity → γ)
    (hg : ∀ (a : Activity) (m : ℚ) (a' : Activity), a.calculate_early m = .ok a' → g a' = g a) :
    ∀ {pending done res : List Activity}, fwdAux done pending = .ok res →
    res.map g = done.map g ++ pending.map g := by
  intro pending
  induction pending with
  | nil =>
    intro done res h
    simp only [fwdAux] at h
    injection h with h
    subst h
    simp
  | cons a rest ih =>
    intro done res h
    rcases fwdAux_cons_ok.mp h with ⟨a', he, hrest⟩
    have := ih hrest
    rw [this, List.map_append, List.map_cons]
    simp [hg a _ a' he]

theorem bwdAuxR_map {γ : Type} {pd : ℚ} (f : Activity → γ)
    (hf : ∀ (st : List Activity) (a : Activity), f (backStep st pd a) = f a) :
    ∀ rev done : List Activity,
      (bwdAuxR pd rev done).map f = rev.reverse.map f ++ done.map f := by
  intro rev
  induction rev with
  | nil => intro done; simp [bwdAuxR]
  | cons a revRest ih =>
    intro done
    simp only [bwdAuxR]
    rw [ih]
    simp [hf]

theorem bwdAuxR_mem {pd : ℚ} :
    ∀ rev done : List Activity, ∀ x ∈ bwdAuxR pd rev done,
      x ∈ done ∨ ∃ st a, a ∈ rev ∧ x = backStep st pd a := by
  intro rev
  induction rev with
  | nil => intro done x hx; exact Or.inl hx
  | cons a revRest ih =>
    intro done x hx
    simp only [bwdAuxR] at hx
    rcases ih _ x hx with hdone | ⟨st, b, hb, rfl⟩
    · rcases List.mem_cons.mp hdone with rfl | h1
      · exact Or.inr ⟨_, a, List.mem_cons_self a revRest, rfl⟩
      · exact Or.inl h1
    · exact Or.inr ⟨st, b, List.mem_cons_of_mem a hb, rfl⟩

theorem listMax_ok_iff {l : List ℚ} {pd : ℚ} :
    listMax l = .ok pd ↔ ∃ e es, l = e :: es ∧ pd = es.foldl max e := by
  cases l with
  | nil => simp [listMax]
  | cons e es =>
    simp only [listMax, List.cons.injEq]
    constructor
    · intro h; injection h with h; exact ⟨e, es, ⟨rfl, rfl⟩, h.symm⟩
    · rintro ⟨e', es', ⟨rfl, rfl⟩, rfl⟩; rfl

theorem calculate_cpm_ok_iff {n : Network} {res : Network} :
    n.calculate_cpm = .ok res ↔
      ∃ out pd, fwdAux [] n.activities = .ok out
        ∧ listMax (out.map Activity.EF) = .ok pd
        ∧ res = ⟨bwdAuxR pd out.reverse []⟩ := by
  unfold Network.calculate_cpm
  cases h : fwdAux [] n.activities with
  | error e => simp [h, Except.bind, bind]
  | ok out =>
    cases h2 : listMax (out.map Activity.EF) with
    | error e => simp [h, h2, Except.bind, bind]
    | ok pd =>
      simp only [h, h2, bind, Except.bind, pure, Except.pure]
      constructor
      · intro hres
        injection hres with hres
        exact ⟨out, pd, rfl, h2, hres.symm⟩
      · rintro ⟨out', pd', h1, h3, rfl⟩
        injection h1 with h1
        subst h1
        rw [h2] at h3
        injection h3 with h3
        subst h3
        rfl

/-! ### Claims settled directly against the per-activity computations -/

/-- C3: every call of `calculate_late` with a numeric deadline sets `LF` to
the deadline when the activity has no successors and to the given minimal
successor `LS` otherwise, and then sets `LS = LF - duration`. -/
theorem claim_C3 (a : Activity) (min_successor_ls : EFloat) (d : ℚ) :
    ((a.calculate_late min_successor_ls (some d)).LF
        = if a.successors = [] then EFloat.fin d else min_successor_ls)
    ∧ (a.calculate_late min_successor_ls (some d)).LS
        = ((a.calculate_late min_successor_ls (some d)).LF).sub a.duration := by
  cases h : a.successors <;> simp [Activity.calculate_late, h]

/-- C5: `calculate_float` returns the value `LS - ES`, and afterwards
`is_critical` holds exactly when that value rounds to zero at 2-decimal
precision, whatever `is_critical` was before. -/
theorem claim_C5 (a : Activity) :
    (a.calculate_float).1 = a.LS.sub a.ES
    ∧ (a.calculate_float).2.is_critical = (a.LS.sub a.ES).slackRoundZero
    ∧ ((a.calculate_float).2.is_critical = true ↔
        ∃ q : ℚ, a.LS.sub a.ES = .fin q ∧ roundHalfEven (q * 100) = 0) := by
  refine ⟨rfl, rfl, ?_⟩
  cases h : a.LS.sub a.ES with
  | inf => simp [Activity.calculate_float, h, EFloat.slackRoundZero]
  | fin q =>
    simp [Activity.calculate_float, h, EFloat.slackRoundZero, pyRound2IsZero, beq_iff_eq]

/-- C9: `calculate_cpm` on a network with zero activities raises the
empty-network error instead of returning a schedule. -/
theorem claim_C9 : Network.calculate_cpm ⟨[]⟩ = .error CpmError.emptyNetwork := rfl

/-- C1: on the network A(3,[]), B(2,[A]), C(4,[A]), D(1,[B,C]) inserted in
this order, linked and scheduled, the earliest times are A:0/3, B:3/5, C:3/7,
D:7/8, the project duration is 8, exactly A, C, D are critical with slack 0,
and B has slack 2. -/
theorem claim_C1 :
    demoNet.calculate_cpm = .ok demoOk
    ∧ (lookup demoOk.activities "A").map (fun a => (a.ES, a.EF)) = some (0, 3)
    ∧ (lookup demoOk.activities "B").map (fun a => (a.ES, a.EF)) = some (3, 5)
    ∧ (lookup demoOk.activities "C").map (fun a => (a.ES, a.EF)) = some (3, 7)
    ∧ (lookup demoOk.activities "D").map (fun a => (a.ES, a.EF)) = some (7, 8)
    ∧ cpmProjectDuration demoNet = .ok 8
    ∧ (demoOk.activities.filter (fun a => a.is_critical)).map Activity.id = ["A", "C", "D"]
    ∧ (lookup demoOk.activities "A").map (fun a => a.LS.sub a.ES) = some (.fin 0)
    ∧ (lookup demoOk.activities "C").map (fun a => a.LS.sub a.ES) = some (.fin 0)
    ∧ (lookup demoOk.activities "D").map (fun a => a.LS.sub a.ES) = some (.fin 0)
    ∧ (lookup demoOk.activities "B").map (fun a => a.LS.sub a.ES) = some (.fin 2) := by
  norm_num +decide [demoOk, demoNet, demoUnlinked, Network.link_successors, linkActs,
    linkFromActivity, linkPredStep, updateActs, Network.add_activity_object, Activity.init,
    Network.calculate_cpm, cpmProjectDuration, fwdAux, bwdAuxR, backStep, maxPrevEF, predEFs,
    minSuccLS, succLSs, lookup, hasId, Activity.calculate_early, Activity.calculate_late,
    Activity.calculate_float, EFloat.sub, EFloat.emin, EFloat.slackRoundZero, pyRound2IsZero,
    roundHalfEven, ratFloor, listMax, List.foldl, List.filterMap, List.filter, max_def, min_def,
    Except.bind, bind, Except.map, Functor.map, Except.pure, pure]

/-- C2: in the forward pass, each activity's `ES` is set to the maximum `EF`
over its predecessor ids present in the network (`predEFs` collects exactly
those), to `0` when no predecessor is present, and an absent predecessor id is
ignored: erasing it from the predecessor list leaves the computed value
unchanged. -/
theorem claim_C2 (st done rest : List Activity) (a : Activity) :
    (∀ res, fwdAux done (a :: rest) = .ok res →
      ∃ a', a.calculate_early (maxPrevEF (done ++ a :: rest) a) = .ok a'
        ∧ a'.ES = maxPrevEF (done ++ a :: rest) a
        ∧ fwdAux (done ++ [a']) rest = .ok res)
    ∧ (predEFs st a = [] → maxPrevEF st a = 0)
    ∧ (predEFs st a ≠ [] →
        maxPrevEF st a ∈ predEFs st a ∧ ∀ e ∈ predEFs st a, e ≤ maxPrevEF st a)
    ∧ (∀ p, lookup st p = none →
        maxPrevEF st { a with predecessors := a.predecessors.erase p } = maxPrevEF st a) := by
  refine ⟨?_, ?_, ?_, ?_⟩
  · intro res h
    rcases fwdAux_cons_ok.mp h with ⟨a', he, hrest⟩
    refine ⟨a', he, ?_, hrest⟩
    rcases calculate_early_ok_iff.mp he with ⟨_, rfl⟩
    rfl
  · intro h
    unfold maxPrevEF
    rw [h]
  · intro h
    cases hp : predEFs st a with
    | nil => exact absurd hp h
    | cons e es =>
      have hval : maxPrevEF st a = es.foldl max e := by unfold maxPrevEF; rw [hp]
      constructor
      · rw [hval]
        rcases foldl_max_mem es e with h1 | h1
        · rw [h1]; exact List.mem_cons_self e es
        · exact List.mem_cons_of_mem e h1
      · intro x hx
        rw [hval]
        rcases List.mem_cons.mp hx with rfl | hx
        · exact le_foldl_max es x
        · exact mem_le_foldl_max e hx
  · intro p hp
    unfold maxPrevEF predEFs
    have : ({ a with predecessors := a.predecessors.erase p } : Activity).predecessors
        = a.predecessors.erase p := rfl
    rw [this, filterMap_erase_of_none _ (by rw [hp]; rfl) a.predecessors]

/-- Witness for C2 at a concrete input: activity X with duration 2 and
predecessors [A, Z], where A is in the network with `EF = 0` and Z is
dangling; Y has only the dangling predecessor Z. -/
theorem claim_C2_witness :
    (∃ a', (Activity.init "X" "X" 2 ["A", "Z"]).calculate_early
        (maxPrevEF ([Activity.init "A" "A" 3 []] ++ Activity.init "X" "X" 2 ["A", "Z"] :: [])
          (Activity.init "X" "X" 2 ["A", "Z"])) = .ok a'
      ∧ a'.ES = maxPrevEF ([Activity.init "A" "A" 3 []] ++ Activity.init "X" "X" 2 ["A", "Z"] :: [])
          (Activity.init "X" "X" 2 ["A", "Z"])
      ∧ fwdAux ([Activity.init "A" "A" 3 []] ++ [a']) [] =
          .ok [Activity.init "A" "A" 3 [],
               { Activity.init "X" "X" 2 ["A", "Z"] with ES := 0, EF := 2 }])
    ∧ maxPrevEF [Activity.init "A" "A" 3 []] (Activity.init "Y" "Y" 1 ["Z"]) = 0
    ∧ maxPrevEF [Activity.init "A" "A" 3 []] (Activity.init "X" "X" 2 ["A", "Z"])
        ∈ predEFs [Activity.init "A" "A" 3 []] (Activity.init "X" "X" 2 ["A", "Z"])
    ∧ maxPrevEF [Activity.init "A" "A" 3 []]
        { Activity.init "X" "X" 2 ["A", "Z"] with
          predecessors := (Activity.init "X" "X" 2 ["A", "Z"]).predecessors.erase "Z" }
        = maxPrevEF [Activity.init "A" "A" 3 []] (Activity.init "X" "X" 2 ["A", "Z"]) := by
  refine ⟨?_, ?_, ?_, ?_⟩
  · exact (claim_C2 [] [Activity.init "A" "A" 3 []] [] (Activity.init "X" "X" 2 ["A", "Z"])).1
      [Activity.init "A" "A" 3 [], { Activity.init "X" "X" 2 ["A", "Z"] with ES := 0, EF := 2 }]
      (by norm_num [fwdAux, Activity.init, Activity.calculate_early, maxPrevEF, predEFs, lookup,
        List.filterMap, List.foldl, max_def])
  · exact (claim_C2 [Activity.init "A" "A" 3 []] [] [] (Activity.init "Y" "Y" 1 ["Z"])).2.1
      (by simp [predEFs, Activity.init, lookup, List.filterMap])
  · exact ((claim_C2 [Activity.init "A" "A" 3 []] [] [] (Activity.init "X" "X" 2 ["A", "Z"])).2.2.1
      (by simp [predEFs, Activity.init, lookup, List.filterMap])).1
  · exact (claim_C2 [Activity.init "A" "A" 3 []] [] [] (Activity.init "X" "X" 2 ["A", "Z"])).2.2.2
      "Z" (by simp [lookup, Activity.init])

theorem EFloat.sub_le_self (x : EFloat) (d : ℚ) (hd : 0 ≤ d) : EFloat.le (x.sub d) x := by
  cases x with
  | inf => simp [EFloat.sub, EFloat.le]
  | fin q => simp only [EFloat.sub, EFloat.le]; linarith

/-- C4: after a successful `calculate_cpm`, the project duration computed at
line 93 is the maximum `EF` over all activities of the result (the backward
pass leaves every `EF` unchanged), and every activity without successors has
`LF` equal to that project duration. -/
theorem claim_C4 (n res : Network) (h : n.calculate_cpm = .ok res) :
    ∃ pd, cpmProjectDuration n = .ok pd
      ∧ listMax (res.activities.map Activity.EF) = .ok pd
      ∧ ∀ a ∈ res.activities, a.successors = [] → a.LF = EFloat.fin pd := by
  rcases calculate_cpm_ok_iff.mp h with ⟨out, pd, hfwd, hmax, rfl⟩
  refine ⟨pd, ?_, ?_, ?_⟩
  · simp [cpmProjectDuration, hfwd, hmax, bind, Except.bind]
  · have hEF : (bwdAuxR pd out.reverse []).map Activity.EF
        = out.reverse.reverse.map Activity.EF ++ ([] : List Activity).map Activity.EF :=
      bwdAuxR_map Activity.EF (fun st a => backStep_EF st pd a) out.reverse []
    simp only [List.reverse_reverse, List.map_nil, List.append_nil] at hEF
    show listMax ((bwdAuxR pd out.reverse []).map Activity.EF) = .ok pd
    rw [hEF, hmax]
  · intro a ha hsucc
    rcases bwdAuxR_mem out.reverse [] a ha with h1 | ⟨st, b, _, rfl⟩
    · simp at h1
    · have hb : b.successors = [] := by
        rw [← backStep_successors st pd b]
        exact hsucc
      exact backStep_LF_of_nil st pd hb

/-- Witness for C4: the demo network. -/
theorem claim_C4_witness :
    ∃ pd, cpmProjectDuration demoNet = .ok pd
      ∧ listMax (demoOk.activities.map Activity.EF) = .ok pd
      ∧ ∀ a ∈ demoOk.activities, a.successors = [] → a.LF = EFloat.fin pd :=
  claim_C4 demoNet demoOk
    (by norm_num +decide [demoOk, demoNet, demoUnlinked, Network.link_successors, linkActs,
      linkFromActivity, linkPredStep, updateActs, Network.add_activity_object, Activity.init,
      Network.calculate_cpm, fwdAux, bwdAuxR, backStep, maxPrevEF, predEFs,
      minSuccLS, succLSs, lookup, hasId, Activity.calculate_early, Activity.calculate_late,
      Activity.calculate_float, EFloat.sub, EFloat.emin, EFloat.slackRoundZero, pyRound2IsZero,
      roundHalfEven, ratFloor, listMax, List.foldl, List.filterMap, max_def, min_def,
      Except.bind, bind, Except.map, Functor.map, Except.pure, pure])

/-- C6: after a successful `calculate_cpm`, every activity of the result has
`EF >= ES` and `LF >= LS`; and a network containing an activity of negative
duration can never complete successfully, because `calculate_early` raises. -/
theorem claim_C6 (n : Network) :
    (∀ res, n.calculate_cpm = .ok res →
      ∀ a ∈ res.activities, a.ES ≤ a.EF ∧ EFloat.le a.LS a.LF)
    ∧ ((∃ a ∈ n.activities, a.duration < 0) → ∀ res, n.calculate_cpm ≠ .ok res) := by
  constructor
  · intro res h a ha
    rcases calculate_cpm_ok_iff.mp h with ⟨out, pd, hfwd, hmax, rfl⟩
    rcases bwdAuxR_mem out.reverse [] a ha with h1 | ⟨st, b, hb, rfl⟩
    · simp at h1
    · have hbout : b ∈ out := List.mem_reverse.mp hb
      rcases fwdAux_ok_mem hfwd b hbout with h2 | ⟨hEF, hdur⟩
      · simp at h2
      · constructor
        · rw [backStep_ES, backStep_EF, hEF]
          linarith
        · rw [backStep_LS st pd b, ← backStep_duration st pd b]
          exact EFloat.sub_le_self _ _ (by rw [backStep_duration]; exact hdur)
  · rintro ⟨a, ha, hneg⟩ res h
    rcases calculate_cpm_ok_iff.mp h with ⟨out, pd, hfwd, _, _⟩
    exact absurd (fwdAux_ok_nonneg hfwd a ha) (not_le.mpr hneg)

/-- Witness for C6: the demo network for the success part, and a
negative-duration singleton network for the failure part. -/
theorem claim_C6_witness :
    (∀ a ∈ demoOk.activities, a.ES ≤ a.EF ∧ EFloat.le a.LS a.LF)
    ∧ ∀ res, Network.calculate_cpm ⟨[Activity.init "N" "N" (-1) []]⟩ ≠ .ok res := by
  constructor
  · exact (claim_C6 demoNet).1 demoOk
      (by norm_num +decide [demoOk, demoNet, demoUnlinked, Network.link_successors, linkActs,
        linkFromActivity, linkPredStep, updateActs, Network.add_activity_object, Activity.init,
        Network.calculate_cpm, fwdAux, bwdAuxR, backStep, maxPrevEF, predEFs,
        minSuccLS, succLSs, lookup, hasId, Activity.calculate_early, Activity.calculate_late,
        Activity.calculate_float, EFloat.sub, EFloat.emin, EFloat.slackRoundZero, pyRound2IsZero,
        roundHalfEven, ratFloor, listMax, List.foldl, List.filterMap, max_def, min_def,
        Except.bind, bind, Except.map, Functor.map, Except.pure, pure])
  · exact (claim_C6 ⟨[Activity.init "N" "N" (-1) []]⟩).2
      ⟨Activity.init "N" "N" (-1) [], by simp, by norm_num [Activity.init]⟩

/-! ### Lemmas about the builder (lines 162-188) -/

theorem hasId_iff {acts : List Activity} {i : String} :
    hasId acts i = true ↔ i ∈ acts.map Activity.id := by
  unfold hasId
  exact lookup_isSome_iff

theorem updateActs_map_id {acts : List Activity} {i : String} {f : Activity → Activity}
    (hf : ∀ b : Activity, b.id = i → (f b).id = b.id) :
    (updateActs acts i f).map Activity.id = acts.map Activity.id := by
  unfold updateActs
  induction acts with
  | nil => rfl
  | cons b bs ih =>
    by_cases h : b.id = i <;> simp [h, ih, hf]

theorem add_preserves_hasId (n : Network) (a : Activity) {i : String}
    (h : hasId n.activities i = true) :
    hasId (n.add_activity_object a).activities i = true := by
  rw [hasId_iff] at h ⊢
  unfold Network.add_activity_object
  by_cases hc : hasId n.activities a.id
  · rw [if_pos hc]
    show i ∈ (updateActs n.activities a.id (fun _ => a)).map Activity.id
    rw [updateActs_map_id (fun b hb => by rw [hb])]
    exact h
  · rw [if_neg hc]
    show i ∈ (n.activities ++ [a]).map Activity.id
    rw [List.map_append]
    exact List.mem_append_left _ h

theorem add_self_hasId (n : Network) (a : Activity) :
    hasId (n.add_activity_object a).activities a.id = true := by
  rw [hasId_iff]
  unfold Network.add_activity_object
  by_cases hc : hasId n.activities a.id
  · rw [if_pos hc]
    show a.id ∈ (updateActs n.activities a.id (fun _ => a)).map Activity.id
    rw [updateActs_map_id (fun b hb => by rw [hb])]
    exact hasId_iff.mp hc
  · rw [if_neg hc]
    show a.id ∈ (n.activities ++ [a]).map Activity.id
    rw [List.map_append]
    exact List.mem_append_right _ (by simp)

theorem buildStep_skip {acc : Network × List String} {it : RawItem}
    (h : ¬ it.wellFormed = true) : buildStep acc it = acc := by
  obtain ⟨net, ws⟩ := acc
  obtain ⟨oid, oname, odur, opred⟩ := it
  unfold RawItem.wellFormed at h
  cases oid with
  | none => cases odur <;> rfl
  | some i =>
    cases odur with
    | none => rfl
    | some d => simp at h

theorem buildFold_filter (items : List RawItem) :
    ∀ acc : Network × List String,
      items.foldl buildStep acc = (items.filter RawItem.wellFormed).foldl buildStep acc := by
  induction items with
  | nil => intro acc; rfl
  | cons it rest ih =>
    intro acc
    by_cases h : it.wellFormed = true
    · rw [List.foldl_cons, List.filter_cons_of_pos h, List.foldl_cons, ih]
    · rw [List.foldl_cons, List.filter_cons_of_neg h, buildStep_skip h, ih]

theorem buildFold_log (items : List RawItem) :
    ∀ acc : Network × List String, (items.foldl buildStep acc).2 = acc.2 := by
  induction items with
  | nil => intro acc; rfl
  | cons it rest ih =>
    intro acc
    rw [List.foldl_cons, ih]
    obtain ⟨net, ws⟩ := acc
    obtain ⟨oid, oname, odur, opred⟩ := it
    cases oid <;> cases odur <;> rfl

theorem buildFold_hasId (items : List RawItem) :
    ∀ (acc : Network × List String) (i : String),
      hasId acc.1.activities i = true →
      hasId (items.foldl buildStep acc).1.activities i = true := by
  induction items with
  | nil => intro acc i h; exact h
  | cons it rest ih =>
    intro acc i h
    rw [List.foldl_cons]
    refine ih _ i ?_
    obtain ⟨net, ws⟩ := acc
    obtain ⟨oid, oname, odur, opred⟩ := it
    cases oid with
    | none => cases odur <;> exact h
    | some j =>
      cases odur with
      | none => exact h
      | some d => exact add_preserves_hasId net _ h

theorem buildFold_wf_hasId (items : List RawItem) :
    ∀ (acc : Network × List String), ∀ it ∈ items, ∀ (i : String) (d : ℚ),
      it.id = some i → it.duration = some d →
      hasId (items.foldl buildStep acc).1.activities i = true := by
  induction items with
  | nil => intro acc it hit; simp at hit
  | cons it0 rest ih =>
    intro acc it hit i d hid hdur
    rcases List.mem_cons.mp hit with rfl | hmem
    · rw [List.foldl_cons]
      apply buildFold_hasId
      obtain ⟨net, ws⟩ := acc
      obtain ⟨oid, oname, odur, opred⟩ := it
      simp only at hid hdur
      subst hid
      subst hdur
      exact add_self_hasId net _
    · rw [List.foldl_cons]
      exact ih _ it hmem i d hid hdur

/-- C10, counterexample to the claim as stated: a record lacking the `id`
field is dropped, but the warning log of the load stays empty — the build loop
of `NetworkBuilder.build` (lines 171-178) has no `else` branch and emits no
warning, so "dropped with a warning" is false at this input. -/
theorem claim_C10_counterexample :
    (buildPopulate [⟨none, some "X", some 5, none⟩]).1.activities = []
    ∧ (buildPopulate [⟨none, some "X", some 5, none⟩]).2 = [] := ⟨rfl, rfl⟩

/-- C10 (amended): every record missing `id` or `duration` is silently
dropped — building from `items` gives the same network as building from the
well-formed records only, and the warning log is always empty (no warning is
emitted) — while every record having both fields becomes an activity of the
network; the skip never aborts the load. -/
theorem claim_C10 (items : List RawItem) :
    (buildPopulate items).1 = (buildPopulate (items.filter RawItem.wellFormed)).1
    ∧ (buildPopulate items).2 = []
    ∧ ∀ it ∈ items, ∀ (i : String) (d : ℚ), it.id = some i → it.duration = some d →
        hasId (buildPopulate items).1.activities i = true := by
  refine ⟨?_, ?_, ?_⟩
  · unfold buildPopulate
    rw [buildFold_filter]
  · unfold buildPopulate
    rw [buildFold_log]
  · intro it hit i d hid hdur
    exact buildFold_wf_hasId items _ it hit i d hid hdur

/-- Witness for C10 at a concrete input: one well-formed record G and one
record lacking `id`. -/
theorem claim_C10_witness :
    (buildPopulate [⟨some "G", none, some 2, none⟩, ⟨none, none, some 1, none⟩]).1
      = (buildPopulate ([⟨some "G", none, some 2, none⟩,
          ⟨none, none, some 1, none⟩].filter RawItem.wellFormed)).1
    ∧ (buildPopulate [⟨some "G", none, some 2, none⟩, ⟨none, none, some 1, none⟩]).2 = []
    ∧ hasId (buildPopulate [⟨some "G", none, some 2, none⟩,
        ⟨none, none, some 1, none⟩]).1.activities "G" = true := by
  obtain ⟨h1, h2, h3⟩ := claim_C10 [⟨some "G", none, some 2, none⟩, ⟨none, none, some 1, none⟩]
  exact ⟨h1, h2, h3 ⟨some "G", none, some 2, none⟩ (by simp) "G" 2 rfl rfl⟩

/-! ### The linking fold in closed form -/

theorem map_congr_mem {α β : Type} (f g : α → β) :
    ∀ l : List α, (∀ x ∈ l, f x = g x) → l.map f = l.map g := by
  intro l
  induction l with
  | nil => intro _; rfl
  | cons x xs ih =>
    intro h
    simp only [List.map_cons, h x (List.mem_cons_self x xs),
      ih (fun y hy => h y (List.mem_cons_of_mem x hy))]

theorem linkUpd_map_id (acts : List Activity) (adds : String → List String) :
    (acts.map (fun a => { a with successors := a.successors ++ adds a.id })).map Activity.id
      = acts.map Activity.id := by
  rw [List.map_map]
  exact map_congr_mem _ _ acts (fun a _ => rfl)

theorem linkUpd_nil (acts : List Activity) :
    acts.map (fun a => { a with successors := a.successors ++ ([] : List String) }) = acts := by
  have h : ∀ a ∈ acts,
      (fun a => { a with successors := a.successors ++ ([] : List String) }) a = id a := by
    intro a _
    simp
  rw [map_congr_mem _ _ acts h, List.map_id]

theorem linkPredStep_map (acts : List Activity) (adds : String → List String) (cid pid : String) :
    linkPredStep (acts.map (fun a => { a with successors := a.successors ++ adds a.id })) cid pid
      = acts.map (fun a => { a with successors := a.successors ++
          (adds a.id ++ (if pid ∈ acts.map Activity.id ∧ a.id = pid then [cid] else [])) }) := by
  unfold linkPredStep
  by_cases hp : pid ∈ acts.map Activity.id
  · have hs : hasId (acts.map
        (fun a => { a with successors := a.successors ++ adds a.id })) pid = true := by
      rw [hasId_iff, linkUpd_map_id]
      exact hp
    rw [if_pos hs]
    unfold updateActs
    rw [List.map_map]
    apply map_congr_mem
    intro a _
    by_cases hx : a.id = pid
    · simp [Function.comp, hx, hp, List.append_assoc]
    · simp [Function.comp, hx, hp]
  · have hs : ¬ hasId (acts.map
        (fun a => { a with successors := a.successors ++ adds a.id })) pid = true := by
      rw [hasId_iff, linkUpd_map_id]
      exact hp
    rw [if_neg hs]
    apply map_congr_mem
    intro a _
    simp [hp]

theorem linkInner_fold (acts : List Activity) (cid : String) :
    ∀ (preds : List String) (adds : String → List String),
      preds.foldl (fun c pid => linkPredStep c cid pid)
          (acts.map (fun a => { a with successors := a.successors ++ adds a.id }))
        = acts.map (fun a => { a with successors := a.successors ++ (adds a.id ++
            (preds.filter (fun q => decide (q = a.id) && decide (q ∈ acts.map Activity.id))).map
              (fun _ => cid)) }) := by
  intro preds
  induction preds with
  | nil =>
    intro adds
    apply map_congr_mem
    intro a _
    simp
  | cons pid rest ih =>
    intro adds
    rw [List.foldl_cons, linkPredStep_map]
    rw [ih (fun x => adds x ++ (if pid ∈ List.map Activity.id acts ∧ x = pid then [cid] else []))]
    apply map_congr_mem
    intro a _
    by_cases h1 : pid = a.id
    · subst h1
      by_cases h2 : ∃ b ∈ acts, b.id = a.id
      · simp [List.filter_cons, h2, List.append_assoc]
      · simp [List.filter_cons, h2]
    · have h1' : ¬ a.id = pid := fun hc => h1 hc.symm
      simp [List.filter_cons, h1, h1']

theorem linkOuter_fold (acts : List Activity) :
    ∀ (toGo : List Activity) (adds : String → List String),
      toGo.foldl linkFromActivity
          (acts.map (fun a => { a with successors := a.successors ++ adds a.id }))
        = acts.map (fun a => { a with successors := a.successors ++
            (adds a.id ++ linkAdds (acts.map Activity.id) toGo a.id) }) := by
  intro toGo
  induction toGo with
  | nil =>
    intro adds
    apply map_congr_mem
    intro a _
    simp [linkAdds]
  | cons c cs ih =>
    intro adds
    show cs.foldl linkFromActivity (c.predecessors.foldl (fun k pid => linkPredStep k c.id pid)
      (acts.map (fun a => { a with successors := a.successors ++ adds a.id }))) = _
    rw [linkInner_fold acts c.id c.predecessors adds]
    rw [ih (fun x => adds x ++
      (c.predecessors.filter (fun q => decide (q = x) && decide (q ∈ acts.map Activity.id))).map
        (fun _ => c.id))]
    apply map_congr_mem
    intro a _
    simp [linkAdds, List.append_assoc]

theorem linkActs_eq (acts : List Activity) :
    linkActs acts = acts.map (fun a =>
      { a with successors := a.successors ++ linkAdds (acts.map Activity.id) acts a.id }) := by
  have h := linkOuter_fold acts acts (fun _ => [])
  rw [linkUpd_nil] at h
  unfold linkActs
  rw [h]
  apply map_congr_mem
  intro a _
  simp

theorem mem_linkAdds {ids : List String} {x s : String} :
    ∀ cs : List Activity,
      s ∈ linkAdds ids cs x ↔ ∃ c ∈ cs, c.id = s ∧ x ∈ c.predecessors ∧ x ∈ ids := by
  intro cs
  induction cs with
  | nil => simp [linkAdds]
  | cons c rest ih =>
    simp only [linkAdds, List.mem_append, ih, List.mem_map, List.mem_filter, List.mem_cons,
      Bool.and_eq_true, decide_eq_true_eq]
    constructor
    · rintro (⟨q, ⟨hq, rfl, hin⟩, rfl⟩ | ⟨c', hc', hprop⟩)
      · exact ⟨c, Or.inl rfl, rfl, hq, hin⟩
      · exact ⟨c', Or.inr hc', hprop⟩
    · rintro ⟨c', hc' | hc', hcid, hx, hin⟩
      · subst hc'
        exact Or.inl ⟨x, ⟨hx, rfl, hin⟩, hcid⟩
      · exact Or.inr ⟨c', hc', hcid, hx, hin⟩

theorem nodup_id_inj {acts : List Activity} (h : (acts.map Activity.id).Nodup) :
    ∀ {b c : Activity}, b ∈ acts → c ∈ acts → b.id = c.id → b = c := by
  induction acts with
  | nil => intro b c hb _ _; simp at hb
  | cons a rest ih =>
    intro b c hb hc hid
    simp only [List.map_cons, List.nodup_cons] at h
    obtain ⟨hnot, hrest⟩ := h
    rcases List.mem_cons.mp hb with rfl | hb' <;> rcases List.mem_cons.mp hc with rfl | hc'
    · rfl
    · exact absurd (List.mem_map.mpr ⟨c, hc', hid.symm⟩) hnot
    · exact absurd (List.mem_map.mpr ⟨b, hb', hid⟩) hnot
    · exact ih hrest hb' hc' hid

theorem linkActs_eq_upd (acts : List Activity) :
    linkActs acts = acts.map (linkUpd (acts.map Activity.id) acts) :=
  linkActs_eq acts

theorem linkUpd_id (ids : List String) (cs : List Activity) (a : Activity) :
    (linkUpd ids cs a).id = a.id := rfl

theorem linkUpd_predecessors (ids : List String) (cs : List Activity) (a : Activity) :
    (linkUpd ids cs a).predecessors = a.predecessors := rfl

theorem linkUpd_successors (ids : List String) (cs : List Activity) {a : Activity}
    (h : a.successors = []) : (linkUpd ids cs a).successors = linkAdds ids cs a.id := by
  unfold linkUpd
  rw [h]
  rfl

/-- C8: after one invocation of `_link_successors` on a network whose
activities all have empty successor lists (and whose keys are unique, as a
Python dict guarantees), activity A's successor list contains B's id exactly
when B's predecessor list contains A's id; and every successor entry points
back to an existing activity that declares A as predecessor, so dangling
predecessor ids produce no successor entry. -/
theorem claim_C8 (n : Network)
    (hE : ∀ a ∈ n.activities, a.successors = [])
    (hN : (n.activities.map Activity.id).Nodup) :
    ∀ A ∈ n.link_successors.activities, ∀ B ∈ n.link_successors.activities,
      (B.id ∈ A.successors ↔ A.id ∈ B.predecessors)
      ∧ ∀ s ∈ A.successors,
          ∃ C ∈ n.link_successors.activities, C.id = s ∧ A.id ∈ C.predecessors := by
  intro A hA B hB
  have hacts : n.link_successors.activities
      = (n.activities).map (linkUpd (n.activities.map Activity.id) n.activities) := by
    show linkActs n.activities = _
    exact linkActs_eq_upd n.activities
  rw [hacts] at hA hB
  rcases List.mem_map.mp hA with ⟨a0, ha0, rfl⟩
  rcases List.mem_map.mp hB with ⟨b0, hb0, rfl⟩
  have hAsucc := linkUpd_successors (n.activities.map Activity.id) n.activities (hE a0 ha0)
  constructor
  · rw [linkUpd_id, linkUpd_predecessors, hAsucc, mem_linkAdds]
    constructor
    · rintro ⟨c, hc, hcid, hcpred, _⟩
      have hcb : c = b0 := nodup_id_inj hN hc hb0 (by rw [hcid])
      subst hcb
      exact hcpred
    · intro h
      exact ⟨b0, hb0, rfl, h, List.mem_map.mpr ⟨a0, ha0, rfl⟩⟩
  · intro s hs
    rw [hAsucc, mem_linkAdds] at hs
    rcases hs with ⟨c, hc, hcid, hcpred, _⟩
    refine ⟨linkUpd (n.activities.map Activity.id) n.activities c, ?_, ?_, ?_⟩
    · rw [hacts]
      exact List.mem_map.mpr ⟨c, hc, rfl⟩
    · rw [linkUpd_id]
      exact hcid
    · rw [linkUpd_id, linkUpd_predecessors]
      exact hcpred

/-- Witness for C8: the demo network before linking (all successor lists
empty, ids A, B, C, D distinct); its linked form is the demo network. -/
theorem claim_C8_witness :
    (∀ A ∈ demoUnlinked.link_successors.activities,
     ∀ B ∈ demoUnlinked.link_successors.activities,
      (B.id ∈ A.successors ↔ A.id ∈ B.predecessors)
      ∧ ∀ s ∈ A.successors,
          ∃ C ∈ demoUnlinked.link_successors.activities, C.id = s ∧ A.id ∈ C.predecessors)
    ∧ demoUnlinked.link_successors = demoNet :=
  ⟨claim_C8 demoUnlinked
    (by norm_num +decide [demoUnlinked, Network.add_activity_object, Activity.init,
      updateActs, hasId, lookup])
    (by norm_num +decide [demoUnlinked, Network.add_activity_object, Activity.init,
      updateActs, hasId, lookup]), rfl⟩

/-! ### Fixpoint lemmas: a schedule consistent with the current state is left
unchanged by re-running either pass -/

theorem backStep_LF_of_cons {a : Activity} (st : List Activity) (pd : ℚ)
    (h : a.successors ≠ []) : (backStep st pd a).LF = minSuccLS st a := by
  rw [backStep_eq]
  cases hs : a.successors with
  | nil => exact absurd hs h
  | cons s ss => simp [hs]

theorem backStep_is_critical (st : List Activity) (pd : ℚ) (a : Activity) :
    (backStep st pd a).is_critical
      = (((backStep st pd a).LS).sub a.ES).slackRoundZero := by
  rw [backStep_eq]

theorem backStep_fix {st : List Activity} {pd : ℚ} {a : Activity}
    (h : BwdFix st pd a) : backStep st pd a = a := by
  obtain ⟨hnil, hcons, hLS, hcrit⟩ := h
  rw [backStep_eq]
  cases hs : a.successors with
  | nil =>
    have hLF := hnil hs
    simp only [hs]
    rw [← hLF, ← hLS, ← hcrit, ← hs]
  | cons s ss =>
    have hLF := hcons (by rw [hs]; exact List.cons_ne_nil s ss)
    simp only [hs]
    rw [← hLF, ← hLS, ← hcrit, ← hs]

theorem fwdAux_fixpoint :
    ∀ (pending done full : List Activity), full = done ++ pending →
      (∀ a ∈ pending, FwdFix full a) → fwdAux done pending = .ok full := by
  intro pending
  induction pending with
  | nil =>
    intro done full hfull _
    rw [hfull, List.append_nil]
    rfl
  | cons a rest ih =>
    intro done full hfull hfix
    obtain ⟨hES, hEF, hd⟩ := hfix a (List.mem_cons_self a rest)
    have hstep : a.calculate_early (maxPrevEF (done ++ a :: rest) a) = .ok a := by
      refine calculate_early_ok_iff.mpr ⟨hd, ?_⟩
      rw [← hfull, ← hES, ← hEF]
    have hone : fwdAux done (a :: rest) = fwdAux (done ++ [a]) rest := by
      simp only [fwdAux, hstep]
    rw [hone]
    refine ih (done ++ [a]) full ?_ (fun b hb => hfix b (List.mem_cons_of_mem a hb))
    rw [hfull, List.append_assoc]
    rfl

theorem bwdAuxR_fixpoint :
    ∀ (rev done full : List Activity) (pd : ℚ), full = rev.reverse ++ done →
      (∀ a ∈ rev, BwdFix full pd a) → bwdAuxR pd rev done = full := by
  intro rev
  induction rev with
  | nil =>
    intro done full pd hfull _
    rw [hfull, List.reverse_nil, List.nil_append]
    rfl
  | cons a rest ih =>
    intro done full pd hfull hfix
    have hst : rest.reverse ++ a :: done = full := by
      rw [hfull, List.reverse_cons, List.append_assoc]
      rfl
    show bwdAuxR pd rest (backStep (rest.reverse ++ a :: done) pd a :: done) = full
    rw [hst, backStep_fix (hfix a (List.mem_cons_self a rest))]
    exact ih (a :: done) full pd hst.symm (fun b hb => hfix b (List.mem_cons_of_mem a hb))

/-! ### The forward pass establishes the forward fixpoint (under the
documented topological-order precondition) -/

theorem maxPrevEF_append {done suffix : List Activity} {b : Activity} {ids0 : List String}
    (hdone : ∀ c ∈ done, c.id ∈ ids0) (hsuf : ∀ c ∈ suffix, c.id ∈ ids0)
    (hclosed : PredsIn done ids0 b) :
    maxPrevEF (done ++ suffix) b = maxPrevEF done b := by
  apply maxPrevEF_congr rfl
  intro p hp
  rcases hclosed p hp with hsome | hnot
  · obtain ⟨v, hv⟩ := Option.isSome_iff_exists.mp hsome
    rw [lookup_append_of_some hv, hv]
  · have h1 : lookup done p = none := by
      rw [lookup_eq_none_iff]
      intro c hc hcid
      exact hnot (hcid ▸ hdone c hc)
    have h2 : lookup suffix p = none := by
      rw [lookup_eq_none_iff]
      intro c hc hcid
      exact hnot (hcid ▸ hsuf c hc)
    rw [lookup_append_of_none h1, h1, h2]

theorem PredsIn_append {done : List Activity} {ids0 : List String} {b : Activity}
    (suffix : List Activity) (h : PredsIn done ids0 b) : PredsIn (done ++ suffix) ids0 b := by
  intro p hp
  rcases h p hp with hsome | hnot
  · obtain ⟨v, hv⟩ := Option.isSome_iff_exists.mp hsome
    exact Or.inl (by rw [lookup_append_of_some hv]; rfl)
  · exact Or.inr hnot

theorem fwdAux_establishes :
    ∀ (pending done res : List Activity) (ids0 : List String),
      ids0.Nodup →
      (done ++ pending).map Activity.id = ids0 →
      (∀ b ∈ done, FwdFix done b ∧ PredsIn done ids0 b) →
      (∀ k (hk : k < pending.length), ∀ p ∈ (pending.get ⟨k, hk⟩).predecessors,
        p ∈ (done ++ pending.take k).map Activity.id ∨ p ∉ ids0) →
      fwdAux done pending = .ok res →
      (∀ b ∈ res, FwdFix res b ∧ PredsIn res ids0 b) ∧ res.map Activity.id = ids0 := by
  intro pending
  induction pending with
  | nil =>
    intro done res ids0 _ hids hdone _ hrun
    simp only [fwdAux] at hrun
    injection hrun with hrun
    subst hrun
    rw [List.append_nil] at hids
    exact ⟨hdone, hids⟩
  | cons a rest ih =>
    intro done res ids0 hnd hids hdone htopo hrun
    rcases fwdAux_cons_ok.mp hrun with ⟨a', he, hrest⟩
    rcases calculate_early_ok_iff.mp he with ⟨hd, ha'⟩
    have haES : a'.ES = maxPrevEF (done ++ a :: rest) a := by rw [ha']
    have haEF : a'.EF = a'.ES + a'.duration := by rw [ha']
    have haid : a'.id = a.id := by rw [ha']
    have hadur : a'.duration = a.duration := by rw [ha']
    have hapred : a'.predecessors = a.predecessors := by rw [ha']
    have hsub_done : ∀ c ∈ done, c.id ∈ ids0 := by
      intro c hc
      rw [← hids]
      exact List.mem_map_of_mem Activity.id (List.mem_append_left _ hc)
    have hsub_tail : ∀ c ∈ a :: rest, c.id ∈ ids0 := by
      intro c hc
      rw [← hids]
      exact List.mem_map_of_mem Activity.id (List.mem_append_right _ hc)
    have hsub_new : ∀ c ∈ [a'], c.id ∈ ids0 := by
      intro c hc
      rcases List.mem_singleton.mp hc with rfl
      rw [haid]
      exact hsub_tail a (List.mem_cons_self a rest)
    have htopoa : ∀ p ∈ a.predecessors, p ∈ done.map Activity.id ∨ p ∉ ids0 := by
      have h0 := htopo 0 (Nat.succ_pos _)
      simpa using h0
    have hPa : PredsIn done ids0 a := by
      intro p hp
      rcases htopoa p hp with h | h
      · exact Or.inl (lookup_isSome_iff.mpr h)
      · exact Or.inr h
    have hPa' : PredsIn done ids0 a' := by
      intro p hp
      rw [hapred] at hp
      exact hPa p hp
    have hm : maxPrevEF (done ++ a :: rest) a = maxPrevEF done a :=
      maxPrevEF_append hsub_done hsub_tail hPa
    have hids2 : ((done ++ [a']) ++ rest).map Activity.id = ids0 := by
      rw [← hids]
      simp [haid]
    have hdone' : ∀ b ∈ done ++ [a'],
        FwdFix (done ++ [a']) b ∧ PredsIn (done ++ [a']) ids0 b := by
      intro b hb
      rcases List.mem_append.mp hb with hbd | hba
      · obtain ⟨⟨hES, hEF, hdur⟩, hP⟩ := hdone b hbd
        refine ⟨⟨?_, hEF, hdur⟩, PredsIn_append _ hP⟩
        rw [hES]
        exact (maxPrevEF_append hsub_done hsub_new hP).symm
      · rcases List.mem_singleton.mp hba with rfl
        refine ⟨⟨?_, haEF, by rw [hadur]; exact hd⟩, PredsIn_append _ hPa'⟩
        rw [haES, hm, maxPrevEF_congr hapred.symm (fun p _ => rfl)]
        exact (maxPrevEF_append hsub_done hsub_new hPa').symm
    have htopo' : ∀ k (hk : k < rest.length), ∀ p ∈ (rest.get ⟨k, hk⟩).predecessors,
        p ∈ ((done ++ [a']) ++ rest.take k).map Activity.id ∨ p ∉ ids0 := by
      intro k hk p hp
      have hk1 : k + 1 < (a :: rest).length := Nat.succ_lt_succ hk
      have h := htopo (k + 1) hk1 p hp
      rcases h with h | h
      · left
        have hlist : ((done ++ [a']) ++ rest.take k).map Activity.id
            = (done ++ (a :: rest).take (k + 1)).map Activity.id := by
          simp [List.take_cons, haid]
        rw [hlist]
        exact h
      · exact Or.inr h
    exact ih _ res ids0 hnd hids2 hdone' htopo' hrest

/-! ### The backward pass establishes the backward fixpoint -/

theorem minSuccLS_prepend {pre done : List Activity} {b : Activity} {ids0 : List String}
    (hnd : ((pre ++ done).map Activity.id).Nodup)
    (hpre : ∀ c ∈ pre, c.id ∈ ids0) (hdone : ∀ c ∈ done, c.id ∈ ids0)
    (hclosed : SuccsIn done ids0 b) :
    minSuccLS (pre ++ done) b = minSuccLS done b := by
  apply minSuccLS_congr rfl
  intro s hs
  rcases hclosed s hs with hsome | hnot
  · have hsid : s ∈ done.map Activity.id := lookup_isSome_iff.mp hsome
    have hpre_none : lookup pre s = none := by
      rw [lookup_eq_none_iff]
      intro c hc hcid
      rw [List.map_append] at hnd
      exact (List.nodup_append.mp hnd).2.2 (List.mem_map.mpr ⟨c, hc, hcid⟩) hsid
    rw [lookup_append_of_none hpre_none]
  · have h1 : lookup pre s = none := by
      rw [lookup_eq_none_iff]
      intro c hc hcid
      exact hnot (hcid ▸ hpre c hc)
    have h2 : lookup done s = none := by
      rw [lookup_eq_none_iff]
      intro c hc hcid
      exact hnot (hcid ▸ hdone c hc)
    rw [lookup_append_of_none h1, h2]

theorem SuccsIn_cons {done : List Activity} {ids0 : List String} {b : Activity}
    (x : Activity) (h : SuccsIn done ids0 b) : SuccsIn (x :: done) ids0 b := by
  intro s hs
  rcases h s hs with hsome | hnot
  · left
    rw [lookup_isSome_iff] at hsome ⊢
    rw [List.map_cons]
    exact List.mem_cons_of_mem _ hsome
  · exact Or.inr hnot

theorem SuccsIn_of_successors_eq {st : List Activity} {ids0 : List String} {a b : Activity}
    (hs : a.successors = b.successors) (h : SuccsIn st ids0 a) : SuccsIn st ids0 b := by
  intro s hsm
  rw [← hs] at hsm
  exact h s hsm

theorem bwdAuxR_establishes :
    ∀ (rev done : List Activity) (ids0 : List String) (pd : ℚ),
      ids0.Nodup →
      (rev.reverse ++ done).map Activity.id = ids0 →
      (∀ b ∈ done, BwdFix done pd b ∧ SuccsIn done ids0 b) →
      (∀ k (hk : k < rev.length), ∀ s ∈ (rev.get ⟨k, hk⟩).successors,
        s ∈ (rev.take k ++ done).map Activity.id ∨ s ∉ ids0) →
      (∀ b ∈ bwdAuxR pd rev done, BwdFix (bwdAuxR pd rev done) pd b
        ∧ SuccsIn (bwdAuxR pd rev done) ids0 b)
      ∧ (bwdAuxR pd rev done).map Activity.id = ids0 := by
  intro rev
  induction rev with
  | nil =>
    intro done ids0 pd _ hids hdone _
    exact ⟨hdone, hids⟩
  | cons a rest ih =>
    intro done ids0 pd hnd hids hdone htopo
    have hshape : ((a :: rest).reverse ++ done).map Activity.id
        = ((rest.reverse ++ [a]) ++ done).map Activity.id := by
      rw [List.reverse_cons]
    have hids' : ((rest.reverse ++ [a]) ++ done).map Activity.id = ids0 := by
      rw [← hshape]
      exact hids
    have hnd_state : (((rest.reverse ++ [a]) ++ done).map Activity.id).Nodup := by
      rw [hids']
      exact hnd
    have hsub_all : ∀ c ∈ (rest.reverse ++ [a]) ++ done, c.id ∈ ids0 := by
      intro c hc
      rw [← hids']
      exact List.mem_map_of_mem Activity.id hc
    have hsub_done : ∀ c ∈ done, c.id ∈ ids0 :=
      fun c hc => hsub_all c (List.mem_append_right _ hc)
    have hsub_pre : ∀ c ∈ rest.reverse ++ [a], c.id ∈ ids0 :=
      fun c hc => hsub_all c (List.mem_append_left _ hc)
    have haid : a.id ∈ ids0 :=
      hsub_pre a (List.mem_append_right _ (List.mem_singleton.mpr rfl))
    have hSa : SuccsIn done ids0 a := by
      intro s hs
      have h0 := htopo 0 (Nat.succ_pos _)
      simp only [List.get] at h0
      rcases h0 s hs with h | h
      · left
        rw [lookup_isSome_iff]
        simpa using h
      · exact Or.inr h
    have hstassoc : rest.reverse ++ a :: done = (rest.reverse ++ [a]) ++ done := by
      rw [List.append_assoc, List.singleton_append]
    have hmin : minSuccLS (rest.reverse ++ a :: done) a = minSuccLS done a := by
      rw [hstassoc]
      exact minSuccLS_prepend hnd_state hsub_pre hsub_done hSa
    have hnd_ad : (([a] ++ done).map Activity.id).Nodup := by
      have := hnd_state
      rw [List.append_assoc, List.map_append] at this
      exact (List.nodup_append.mp this).2.1
    -- the processed head
    have ha1succ : (backStep (rest.reverse ++ a :: done) pd a).successors = a.successors :=
      backStep_successors _ pd a
    have ha1id : (backStep (rest.reverse ++ a :: done) pd a).id = a.id :=
      backStep_id _ pd a
    have hnd_a1d : (((backStep (rest.reverse ++ a :: done) pd a) :: done).map
        Activity.id).Nodup := by
      have h1 : ((backStep (rest.reverse ++ a :: done) pd a) :: done).map Activity.id
          = ([a] ++ done).map Activity.id := by
        simp [ha1id]
      rw [h1]
      exact hnd_ad
    have hsub_a1 : ∀ c ∈ [backStep (rest.reverse ++ a :: done) pd a], c.id ∈ ids0 := by
      intro c hc
      rcases List.mem_singleton.mp hc with rfl
      rw [ha1id]
      exact haid
    have hmin_cons : ∀ (b : Activity), SuccsIn done ids0 b →
        minSuccLS ((backStep (rest.reverse ++ a :: done) pd a) :: done) b
          = minSuccLS done b := by
      intro b hSb
      show minSuccLS ([backStep (rest.reverse ++ a :: done) pd a] ++ done) b = _
      exact minSuccLS_prepend (by simpa using hnd_a1d) hsub_a1 hsub_done hSb
    have hdone' : ∀ b ∈ (backStep (rest.reverse ++ a :: done) pd a) :: done,
        BwdFix ((backStep (rest.reverse ++ a :: done) pd a) :: done) pd b
        ∧ SuccsIn ((backStep (rest.reverse ++ a :: done) pd a) :: done) ids0 b := by
      intro b hb
      rcases List.mem_cons.mp hb with rfl | hbd
      · constructor
        · refine ⟨?_, ?_, ?_, ?_⟩
          · intro hnilsucc
            exact backStep_LF_of_nil _ pd (ha1succ ▸ hnilsucc)
          · intro hconssucc
            rw [backStep_LF_of_cons _ pd (fun hc => hconssucc (by rw [ha1succ]; exact hc)),
              hmin, ← hmin_cons a hSa]
            exact minSuccLS_congr ha1succ.symm (fun s _ => rfl) |>.symm ▸ rfl
          · rw [backStep_LS, backStep_duration]
          · rw [backStep_is_critical, backStep_ES]
        · refine SuccsIn_of_successors_eq ha1succ.symm (SuccsIn_cons _ ?_)
          exact hSa
      · obtain ⟨⟨hn, hc, hLS, hcr⟩, hSb⟩ := hdone b hbd
        constructor
        · refine ⟨hn, ?_, hLS, hcr⟩
          intro hbc
          rw [hc hbc]
          exact (hmin_cons b hSb).symm
        · exact SuccsIn_cons _ hSb
    have htopo' : ∀ k (hk : k < rest.length), ∀ s ∈ (rest.get ⟨k, hk⟩).successors,
        s ∈ (rest.take k ++ (backStep (rest.reverse ++ a :: done) pd a) :: done).map
          Activity.id ∨ s ∉ ids0 := by
      intro k hk s hs
      have hk1 : k + 1 < (a :: rest).length := Nat.succ_lt_succ hk
      have h := htopo (k + 1) hk1 s hs
      rcases h with h | h
      · left
        simp only [List.take_succ_cons, List.map_append, List.map_cons, List.mem_append,
          List.mem_cons] at h
        simp only [List.map_append, List.map_cons, List.mem_append, List.mem_cons, ha1id]
        rcases h with (rfl | htk) | hdn
        · exact Or.inr (Or.inl rfl)
        · exact Or.inl htk
        · exact Or.inr (Or.inr hdn)
      · exact Or.inr h
    have hids2 : (rest.reverse ++ (backStep (rest.reverse ++ a :: done) pd a) :: done).map
        Activity.id = ids0 := by
      rw [← hids]
      simp [List.reverse_cons, ha1id]
    exact ih ((backStep (rest.reverse ++ a :: done) pd a) :: done) ids0 pd hnd hids2
      hdone' htopo'

/-! ### Index bookkeeping: derived order of successors under the topological
precondition -/

theorem mem_drop_of_get : ∀ {L : List Activity} {m j : ℕ} (hj : j < L.length), m ≤ j →
    L.get ⟨j, hj⟩ ∈ L.drop m := by
  intro L
  induction L with
  | nil => intro m j hj _; exact absurd hj (Nat.not_lt_zero j)
  | cons a rest ih =>
    intro m j hj hmj
    cases m with
    | zero => exact List.get_mem _ _ _
    | succ m2 =>
      cases j with
      | zero => exact absurd hmj (Nat.not_succ_le_zero m2)
      | succ j2 =>
        show (a :: rest).get ⟨j2 + 1, hj⟩ ∈ rest.drop m2
        exact ih (Nat.lt_of_succ_lt_succ hj) (Nat.le_of_succ_le_succ hmj)

theorem nodup_get_id_lt {L : List Activity} (hN : (L.map Activity.id).Nodup) {j m : ℕ}
    (hj : j < L.length) (h : (L.get ⟨j, hj⟩).id ∈ (L.take m).map Activity.id) : j < m := by
  by_contra hc
  push_neg at hc
  have hdrop : (L.get ⟨j, hj⟩).id ∈ (L.drop m).map Activity.id :=
    List.mem_map_of_mem _ (mem_drop_of_get hj hc)
  have hsplit := List.take_append_drop m L
  rw [← hsplit, List.map_append] at hN
  exact (List.nodup_append.mp hN).2.2 h hdrop

theorem linkActs_map_id (acts : List Activity) :
    (linkActs acts).map Activity.id = acts.map Activity.id := by
  rw [linkActs_eq_upd, List.map_map]
  exact map_congr_mem _ _ acts (fun a _ => rfl)

theorem linked_succ_later {acts0 : List Activity}
    (hE0 : ∀ a ∈ acts0, a.successors = [])
    (hN : ((linkActs acts0).map Activity.id).Nodup)
    (htopo : TopoPred (linkActs acts0)) :
    ∀ j (hj : j < (linkActs acts0).length),
      ∀ s ∈ ((linkActs acts0).get ⟨j, hj⟩).successors,
        s ∈ ((linkActs acts0).drop (j + 1)).map Activity.id := by
  intro j hj s hs
  have hlen : (linkActs acts0).length = acts0.length := by
    rw [linkActs_eq_upd, List.length_map]
  have hj0 : j < acts0.length := hlen ▸ hj
  have hget : (linkActs acts0).get ⟨j, hj⟩
      = linkUpd (acts0.map Activity.id) acts0 (acts0.get ⟨j, hj0⟩) := by
    rw [List.get_eq_getElem]
    have : linkActs acts0 = acts0.map (linkUpd (acts0.map Activity.id) acts0) :=
      linkActs_eq_upd acts0
    rw [List.getElem_of_eq this, List.getElem_map]
    rfl
  rw [hget, linkUpd_successors _ _ (hE0 _ (List.get_mem acts0 j hj0))] at hs
  rcases (mem_linkAdds acts0).mp hs with ⟨c, hcmem, hcid, hcpred, _⟩
  rcases List.mem_iff_get.mp hcmem with ⟨⟨m, hm⟩, hcm⟩
  have hmL : m < (linkActs acts0).length := hlen ▸ hm
  have hgetm : (linkActs acts0).get ⟨m, hmL⟩
      = linkUpd (acts0.map Activity.id) acts0 (acts0.get ⟨m, hm⟩) := by
    rw [List.get_eq_getElem]
    have : linkActs acts0 = acts0.map (linkUpd (acts0.map Activity.id) acts0) :=
      linkActs_eq_upd acts0
    rw [List.getElem_of_eq this, List.getElem_map]
    rfl
  have hx : (acts0.get ⟨j, hj0⟩).id ∈ ((linkActs acts0).get ⟨m, hmL⟩).predecessors := by
    rw [hgetm, linkUpd_predecessors, hcm]
    exact hcpred
  have hxid : ((linkActs acts0).get ⟨j, hj⟩).id = (acts0.get ⟨j, hj0⟩).id := by
    rw [hget]
    rfl
  rcases htopo m hmL _ hx with hmem | habsent
  · have hjm : j < m := by
      apply nodup_get_id_lt hN hj
      rw [hxid]
      exact hmem
    have hrevmem : (linkActs acts0).get ⟨m, hmL⟩ ∈ (linkActs acts0).drop (j + 1) :=
      mem_drop_of_get hmL (by omega)
    have hsid : ((linkActs acts0).get ⟨m, hmL⟩).id = s := by
      rw [hgetm, linkUpd_id, hcm, hcid]
    rw [← hsid]
    exact List.mem_map_of_mem _ hrevmem
  · exfalso
    apply habsent
    rw [← hxid]
    exact List.mem_map_of_mem _ (List.get_mem _ j hj)

theorem later_to_rev {L : List Activity} (ids0 : List String)
    (h : ∀ j (hj : j < L.length), ∀ s ∈ (L.get ⟨j, hj⟩).successors,
      s ∈ (L.drop (j + 1)).map Activity.id) :
    ∀ k (hk : k < L.reverse.length), ∀ s ∈ (L.reverse.get ⟨k, hk⟩).successors,
      s ∈ (L.reverse.take k ++ ([] : List Activity)).map Activity.id ∨ s ∉ ids0 := by
  intro k hk s hs
  left
  rw [List.append_nil]
  have hkL : k < L.length := by
    rw [List.length_reverse] at hk
    exact hk
  have hj : L.length - 1 - k < L.length := by omega
  have hrev : L.reverse.get ⟨k, hk⟩ = L.get ⟨L.length - 1 - k, hj⟩ := by
    rw [List.get_eq_getElem, List.get_eq_getElem, List.getElem_reverse]
  rw [hrev] at hs
  have hsmem := h (L.length - 1 - k) hj s hs
  rcases List.mem_map.mp hsmem with ⟨c, hcmem, hcid⟩
  rcases List.mem_iff_get.mp hcmem with ⟨⟨t, ht⟩, hct⟩
  have ht' : t < L.length - (L.length - 1 - k + 1) := by
    rw [List.length_drop] at ht
    exact ht
  have hm : (L.length - 1 - k + 1) + t < L.length := by omega
  have hcglobal : L.get ⟨(L.length - 1 - k + 1) + t, hm⟩ = c := by
    rw [← hct, List.get_eq_getElem, List.get_eq_getElem]
    exact List.getElem_drop' L hm
  have hk'lt : L.length - 1 - ((L.length - 1 - k + 1) + t) < k := by omega
  have hk'rev : L.length - 1 - ((L.length - 1 - k + 1) + t) < L.reverse.length := by
    rw [List.length_reverse]
    omega
  have hrevc : L.reverse.get ⟨L.length - 1 - ((L.length - 1 - k + 1) + t), hk'rev⟩
      = L.get ⟨(L.length - 1 - k + 1) + t, hm⟩ := by
    rw [List.get_eq_getElem, List.get_eq_getElem, List.getElem_reverse]
    congr 1
    show L.length - 1 - (L.length - 1 - ((L.length - 1 - k + 1) + t))
      = (L.length - 1 - k + 1) + t
    omega
  have htklen : L.length - 1 - ((L.length - 1 - k + 1) + t) < (L.reverse.take k).length := by
    rw [List.length_take]
    exact Nat.lt_min.mpr ⟨hk'lt, hk'rev⟩
  have htake : (L.reverse.take k).get ⟨L.length - 1 - ((L.length - 1 - k + 1) + t), htklen⟩
      = L.reverse.get ⟨L.length - 1 - ((L.length - 1 - k + 1) + t), hk'rev⟩ := by
    rw [List.get_eq_getElem, List.get_eq_getElem, List.getElem_take]
  have hcmem2 : c ∈ L.reverse.take k := by
    rw [← hcglobal, ← hrevc, ← htake]
    exact List.get_mem _ _ _
  exact List.mem_map.mpr ⟨c, hcmem2, hcid⟩

/-- C7: on an already-linked network (successor lists produced by one run of
`_link_successors` from initially empty lists) with unique ids whose insertion
order lists every present predecessor before its dependent — the documented
topological-order precondition — a second invocation of `calculate_cpm` on
the unmodified result returns exactly the same network, so every activity
keeps the same `ES`, `EF`, `LS`, `LF` and `is_critical`. -/
theorem claim_C7 (acts0 : List Activity) (n1 : Network)
    (hE0 : ∀ a ∈ acts0, a.successors = [])
    (hN : ((linkActs acts0).map Activity.id).Nodup)
    (htopo : TopoPred (linkActs acts0))
    (h1 : Network.calculate_cpm ⟨linkActs acts0⟩ = .ok n1) :
    n1.calculate_cpm = .ok n1 := by
  rcases calculate_cpm_ok_iff.mp h1 with ⟨out, pd, hfwd, hmax, hres⟩
  have Hout := fwdAux_establishes (linkActs acts0) [] out
    ((linkActs acts0).map Activity.id) hN rfl
    (fun b hb => absurd hb (List.not_mem_nil b)) (fun k hk p hp => htopo k hk p hp) hfwd
  have hskel : out.map (fun a => (a.id, a.successors))
      = (linkActs acts0).map (fun a => (a.id, a.successors)) := by
    have h := fwdAux_map_skel (fun a => (a.id, a.successors))
      (fun a m a' he => by
        rcases calculate_early_ok_iff.mp he with ⟨_, rfl⟩
        rfl) hfwd
    simpa using h
  have hlen_out : out.length = (linkActs acts0).length := by
    have := congrArg List.length hskel
    simpa using this
  have hids_out : out.map Activity.id = (linkActs acts0).map Activity.id := Hout.2
  have hlater_L := linked_succ_later hE0 hN htopo
  have hlater_out : ∀ j (hj : j < out.length), ∀ s ∈ (out.get ⟨j, hj⟩).successors,
      s ∈ (out.drop (j + 1)).map Activity.id := by
    intro j hj s hs
    have hjL : j < (linkActs acts0).length := hlen_out ▸ hj
    have hpair : (out[j]?).map (fun a => (a.id, a.successors))
        = ((linkActs acts0)[j]?).map (fun a => (a.id, a.successors)) := by
      rw [← List.getElem?_map, ← List.getElem?_map, hskel]
    rw [List.getElem?_eq_getElem hj, List.getElem?_eq_getElem hjL] at hpair
    have hsucc_eq : (out.get ⟨j, hj⟩).successors
        = ((linkActs acts0).get ⟨j, hjL⟩).successors := by
      rw [List.get_eq_getElem, List.get_eq_getElem]
      have h2 : (fun a : Activity => (a.id, a.successors)) (out[j])
          = (fun a : Activity => (a.id, a.successors)) ((linkActs acts0)[j]) := by
        have h3 := hpair
        simp only [Option.map_some'] at h3
        exact Option.some.inj h3
      simpa using congrArg Prod.snd h2
    rw [hsucc_eq] at hs
    have hmem := hlater_L j hjL s hs
    have hdropids : ((linkActs acts0).drop (j + 1)).map Activity.id
        = (out.drop (j + 1)).map Activity.id := by
      rw [List.map_drop, List.map_drop, hids_out]
    rw [← hdropids]
    exact hmem
  have HB := bwdAuxR_establishes out.reverse [] ((linkActs acts0).map Activity.id) pd hN
    (by rw [List.reverse_reverse, List.append_nil]; exact hids_out)
    (fun b hb => absurd hb (List.not_mem_nil b))
    (later_to_rev ((linkActs acts0).map Activity.id) hlater_out)
  have hn1acts : n1.activities = bwdAuxR pd out.reverse [] := by rw [hres]
  have hpairEF : (bwdAuxR pd out.reverse []).map (fun x => (x.id, x.EF))
      = out.map (fun x => (x.id, x.EF)) := by
    have h := @bwdAuxR_map (String × ℚ) pd (fun x : Activity => (x.id, x.EF))
      (fun st a => by simp [backStep_id, backStep_EF]) out.reverse []
    simpa using h
  have hmapEF : (bwdAuxR pd out.reverse []).map Activity.EF = out.map Activity.EF := by
    have h := bwdAuxR_map Activity.EF (fun st a => backStep_EF st pd a) out.reverse []
    simpa using h
  have hfix1 : ∀ b ∈ bwdAuxR pd out.reverse [], FwdFix (bwdAuxR pd out.reverse []) b := by
    intro b hb
    rcases bwdAuxR_mem out.reverse [] b hb with h0 | ⟨st, b0, hb0rev, rfl⟩
    · exact absurd h0 (List.not_mem_nil b)
    · have hb0 : b0 ∈ out := List.mem_reverse.mp hb0rev
      obtain ⟨⟨hES, hEF, hdur⟩, _⟩ := Hout.1 b0 hb0
      refine ⟨?_, ?_, ?_⟩
      · rw [backStep_ES, hES]
        refine maxPrevEF_congr (backStep_predecessors st pd b0).symm ?_
        intro p _
        exact lookup_pair_congr Activity.EF hpairEF.symm p
      · rw [backStep_EF, backStep_ES, backStep_duration]
        exact hEF
      · rw [backStep_duration]
        exact hdur
  have hfwd2 : fwdAux [] (bwdAuxR pd out.reverse []) = .ok (bwdAuxR pd out.reverse []) :=
    fwdAux_fixpoint (bwdAuxR pd out.reverse []) [] (bwdAuxR pd out.reverse []) rfl hfix1
  have hmax2 : listMax ((bwdAuxR pd out.reverse []).map Activity.EF) = .ok pd := by
    rw [hmapEF]
    exact hmax
  have hbwd2 : bwdAuxR pd (bwdAuxR pd out.reverse []).reverse [] = bwdAuxR pd out.reverse [] :=
    bwdAuxR_fixpoint (bwdAuxR pd out.reverse []).reverse [] (bwdAuxR pd out.reverse []) pd
      (by rw [List.reverse_reverse, List.append_nil])
      (fun a ha => (HB.1 a (List.mem_reverse.mp ha)).1)
  refine calculate_cpm_ok_iff.mpr ⟨bwdAuxR pd out.reverse [], pd, ?_, ?_, ?_⟩
  · rw [hn1acts]
    exact hfwd2
  · exact hmax2
  · rw [hres, hbwd2]

/-- Witness for C7: the linked demo network; its schedule is a fixpoint of a
second `calculate_cpm` run. -/
theorem claim_C7_witness : demoOk.calculate_cpm = .ok demoOk :=
  claim_C7 demoUnlinked.activities demoOk
    (by norm_num +decide [demoUnlinked, Network.add_activity_object, Activity.init,
      updateActs, hasId, lookup])
    (by norm_num +decide [demoUnlinked, Network.add_activity_object, Activity.init,
      updateActs, hasId, lookup, linkActs, linkFromActivity, linkPredStep])
    (by unfold TopoPred; decide)
    (by norm_num +decide [demoOk, demoNet, demoUnlinked, Network.link_successors, linkActs,
      linkFromActivity, linkPredStep, updateActs, Network.add_activity_object, Activity.init,
      Network.calculate_cpm, fwdAux, bwdAuxR, backStep, maxPrevEF, predEFs,
      minSuccLS, succLSs, lookup, hasId, Activity.calculate_early, Activity.calculate_late,
      Activity.calculate_float, EFloat.sub, EFloat.emin, EFloat.slackRoundZero, pyRound2IsZero,
      roundHalfEven, ratFloor, listMax, List.foldl, List.filterMap, max_def, min_def,
      Except.bind, bind, Except.map, Functor.map, Except.pure, pure])
